import Mathlib

set_option maxRecDepth 100000

/-!
Shallow embedding of the `shunting_yard` crate (src/shunting_yard/src/lib.rs)
and the thin `calculator` wrapper (src/calculator/src/main.rs).

Rust `f64` values are modelled by `F64`: NaN, the two infinities, and finite
values carried as exact rationals. Finite arithmetic is modelled exactly
(IEEE rounding and overflow of finite intermediates are not modelled); the
special values follow IEEE semantics on the cases the program can reach
(division by zero, remainder by zero, arithmetic with NaN and infinities).
Negative zero is not modelled; the finite value 0 stands for +0.0.
-/

/-- The operator enumeration from src/shunting_yard/src/lib.rs (enum Operator). -/
inductive Operator where
  | Add
  | CloseParen
  | Div
  | OpenParen
  | Pow
  | Mult
  | Sub
  | Mod
  | Exp
deriving DecidableEq, Repr, Fintype

/-- `Operator::precidence` (the source spells precedence this way): Add/Sub 1,
Div/Mod/Mult/Exp 2, Pow 3, wildcard (the parentheses) 0. -/
def Operator.precidence : Operator → Nat
  | Operator.Add => 1
  | Operator.Div => 2
  | Operator.Mod => 2
  | Operator.Mult => 2
  | Operator.Exp => 2
  | Operator.Pow => 3
  | Operator.Sub => 1
  | _ => 0

/-- The overloaded `PartialEq for Operator`: equality of precedence ranks. -/
def Operator.opEq (a b : Operator) : Bool :=
  decide (a.precidence = b.precidence)

/-- The overloaded `gt` of `PartialOrd for Operator`: strict comparison of ranks. -/
def Operator.opGt (a b : Operator) : Bool :=
  decide (b.precidence < a.precidence)

/-- Model of Rust `f64`: NaN, both infinities, and exact finite rationals. -/
inductive F64 where
  | nan
  | inf
  | negInf
  | finite (q : ℚ)
deriving DecidableEq, Repr

/-- `f64::is_nan`. -/
def F64.isNan : F64 → Bool
  | F64.nan => true
  | _ => false

/-- `f64::is_finite`. -/
def F64.isFinite : F64 → Bool
  | F64.finite _ => true
  | _ => false

/-- IEEE addition on the model. -/
def F64.add : F64 → F64 → F64
  | F64.nan, _ => F64.nan
  | _, F64.nan => F64.nan
  | F64.inf, F64.negInf => F64.nan
  | F64.negInf, F64.inf => F64.nan
  | F64.inf, _ => F64.inf
  | _, F64.inf => F64.inf
  | F64.negInf, _ => F64.negInf
  | _, F64.negInf => F64.negInf
  | F64.finite a, F64.finite b => F64.finite (a + b)

/-- IEEE subtraction on the model. -/
def F64.sub : F64 → F64 → F64
  | F64.nan, _ => F64.nan
  | _, F64.nan => F64.nan
  | F64.inf, F64.inf => F64.nan
  | F64.negInf, F64.negInf => F64.nan
  | F64.inf, _ => F64.inf
  | F64.negInf, _ => F64.negInf
  | _, F64.inf => F64.negInf
  | _, F64.negInf => F64.inf
  | F64.finite a, F64.finite b => F64.finite (a - b)

/-- IEEE multiplication on the model (infinity times zero is NaN). -/
def F64.mul : F64 → F64 → F64
  | F64.nan, _ => F64.nan
  | _, F64.nan => F64.nan
  | F64.inf, F64.inf => F64.inf
  | F64.inf, F64.negInf => F64.negInf
  | F64.negInf, F64.inf => F64.negInf
  | F64.negInf, F64.negInf => F64.inf
  | F64.inf, F64.finite q => if q = 0 then F64.nan else if 0 < q then F64.inf else F64.negInf
  | F64.finite q, F64.inf => if q = 0 then F64.nan else if 0 < q then F64.inf else F64.negInf
  | F64.negInf, F64.finite q => if q = 0 then F64.nan else if 0 < q then F64.negInf else F64.inf
  | F64.finite q, F64.negInf => if q = 0 then F64.nan else if 0 < q then F64.negInf else F64.inf
  | F64.finite a, F64.finite b => F64.finite (a * b)

/-- IEEE division on the model: 0/0 is NaN, a nonzero finite value divided by
zero is a (signed) infinity, a finite value divided by infinity is 0. -/
def F64.div : F64 → F64 → F64
  | F64.nan, _ => F64.nan
  | _, F64.nan => F64.nan
  | F64.inf, F64.inf => F64.nan
  | F64.inf, F64.negInf => F64.nan
  | F64.negInf, F64.inf => F64.nan
  | F64.negInf, F64.negInf => F64.nan
  | F64.inf, F64.finite q => if 0 ≤ q then F64.inf else F64.negInf
  | F64.negInf, F64.finite q => if 0 ≤ q then F64.negInf else F64.inf
  | F64.finite _, F64.inf => F64.finite 0
  | F64.finite _, F64.negInf => F64.finite 0
  | F64.finite a, F64.finite b =>
      if b = 0 then
        if a = 0 then F64.nan else if 0 < a then F64.inf else F64.negInf
      else F64.finite (a / b)

/-- Truncation toward zero of a rational, as an integer. -/
def truncQ (q : ℚ) : ℤ := Int.tdiv q.num (q.den : ℤ)

/-- Rust `%` on `f64` (fmod): `a - b * trunc(a / b)`, sign following the
dividend; remainder by zero and remainder of an infinity are NaN; the
remainder of a finite value by an infinity is the value itself. -/
def F64.mod : F64 → F64 → F64
  | F64.nan, _ => F64.nan
  | _, F64.nan => F64.nan
  | F64.inf, _ => F64.nan
  | F64.negInf, _ => F64.nan
  | F64.finite a, F64.inf => F64.finite a
  | F64.finite a, F64.negInf => F64.finite a
  | F64.finite a, F64.finite b =>
      if b = 0 then F64.nan else F64.finite (a - b * (truncQ (a / b) : ℚ))

/-- Rust `f64::powf` on the model. The exponent-zero, NaN, infinite and
negative-base cases follow IEEE `pow`; a finite base raised to a finite
integer exponent is computed exactly. A positive finite base with a
non-integer finite exponent generally has an irrational value, which the
rational carrier cannot represent; that corner (reached by no theorem below)
is mapped to NaN. -/
def F64.powf (a b : F64) : F64 :=
  match b with
  | F64.nan => if a = F64.finite 1 then F64.finite 1 else F64.nan
  | F64.inf =>
      match a with
      | F64.nan => F64.nan
      | F64.inf => F64.inf
      | F64.negInf => F64.inf
      | F64.finite x =>
          if x = 1 ∨ x = -1 then F64.finite 1
          else if -1 < x ∧ x < 1 then F64.finite 0 else F64.inf
  | F64.negInf =>
      match a with
      | F64.nan => F64.nan
      | F64.inf => F64.finite 0
      | F64.negInf => F64.finite 0
      | F64.finite x =>
          if x = 1 ∨ x = -1 then F64.finite 1
          else if -1 < x ∧ x < 1 then F64.inf else F64.finite 0
  | F64.finite q =>
      if q = 0 then F64.finite 1
      else
        match a with
        | F64.nan => F64.nan
        | F64.inf => if 0 < q then F64.inf else F64.finite 0
        | F64.negInf =>
            if 0 < q then
              if q.den = 1 ∧ q.num % 2 ≠ 0 then F64.negInf else F64.inf
            else F64.finite 0
        | F64.finite x =>
            if q.den = 1 then
              if x = 0 then (if 0 < q then F64.finite 0 else F64.inf)
              else F64.finite (if 0 ≤ q.num then x ^ q.num.toNat else (x ^ (-q.num).toNat)⁻¹)
            else if x < 0 then F64.nan
            else if x = 0 then (if 0 < q then F64.finite 0 else F64.inf)
            else F64.nan

/-- `Operator::operate`: the binary function of each operator; the wildcard
arm (the parentheses) yields NaN. `Exp` is `a * 10.0f64.powf(b)`. -/
def Operator.operate : Operator → F64 → F64 → F64
  | Operator.Add, a, b => F64.add a b
  | Operator.Div, a, b => F64.div a b
  | Operator.Mod, a, b => F64.mod a b
  | Operator.Mult, a, b => F64.mul a b
  | Operator.Exp, a, b => F64.mul a (F64.powf (F64.finite 10) b)
  | Operator.Pow, a, b => F64.powf a b
  | Operator.Sub, a, b => F64.sub a b
  | _, _, _ => F64.nan

/-- The token type from src/shunting_yard/src/lib.rs (enum Token). -/
inductive Token where
  | Operator (op : Operator)
  | Operand (s : String)
deriving DecidableEq, Repr

/-- `TryFrom<char> for Operator`, modelled as an optional lookup (the caller
only distinguishes success from failure). -/
def charToOperator (c : Char) : Option Operator :=
  match c with
  | '+' => some Operator.Add
  | ')' => some Operator.CloseParen
  | '/' => some Operator.Div
  | 'E' => some Operator.Exp
  | '%' => some Operator.Mod
  | '*' => some Operator.Mult
  | '(' => some Operator.OpenParen
  | '^' => some Operator.Pow
  | '-' => some Operator.Sub
  | _ => none

/-- The numeric value of a digit string, most significant digit first. -/
def digitsToNat (ds : List Char) : Nat :=
  ds.foldl (fun n c => 10 * n + (c.toNat - 48)) 0

/-- The unsigned part of a decimal literal: digits, optionally followed by a
point and further digits; at least one digit overall. -/
def parseMantissa (cs : List Char) : Option ℚ :=
  let intPart := cs.takeWhile Char.isDigit
  match cs.dropWhile Char.isDigit with
  | [] => if intPart.isEmpty then none else some ((digitsToNat intPart : ℚ))
  | '.' :: frac =>
      if frac.all Char.isDigit && !(intPart.isEmpty && frac.isEmpty) then
        some ((digitsToNat intPart : ℚ) + (digitsToNat frac : ℚ) / (10 : ℚ) ^ frac.length)
      else none
  | _ => none

/-- Model of `str::parse::<f64>()` restricted to plain decimal literals: an
optional sign, digits, and an optional fractional part. Exponent syntax and
the special spellings of infinities and NaN, which no token of this program's
claims uses, are not modelled (they fail to parse here). -/
def parseF64 (s : String) : Option F64 :=
  match s.data with
  | [] => none
  | cs =>
      let p : Bool × List Char :=
        match cs with
        | '-' :: rest => (true, rest)
        | '+' :: rest => (false, rest)
        | _ => (false, cs)
      match parseMantissa p.2 with
      | some q => some (F64.finite (if p.1 then -q else q))
      | none => none

/-- The state of the tokenizing scan: the operator stack (head is the top),
the output sequence `pe` being built in order, and the operand buffer. -/
structure ScanState where
  operators : List Operator
  pe : List Token
  operand : List Char
deriving DecidableEq, Repr

/-- The close-parenthesis loop of `tokenize`: pop operators into the output
until an open parenthesis is popped (structural match, so it is discarded and
the loop stops), or the stack empties. -/
def popUntilOpen : List Operator → List Token → List Operator × List Token
  | [], pe => ([], pe)
  | top :: rest, pe =>
      match top with
      | Operator.OpenParen => (rest, pe)
      | _ => popUntilOpen rest (pe ++ [Token.Operator top])

/-- The pop loop of `tokenize` for a non-parenthesis operator `op`: stop when
the top compares equal (by rank) to an open parenthesis or `op` compares
strictly greater than the top; otherwise pop the top into the output. -/
def popGE (op : Operator) : List Operator → List Token → List Operator × List Token
  | [], pe => ([], pe)
  | top :: rest, pe =>
      if Operator.opEq top Operator.OpenParen || Operator.opGt op top then (top :: rest, pe)
      else popGE op rest (pe ++ [Token.Operator top])

/-- The default arm of `tokenize`'s operator match: run the pop loop, then
push the incoming operator. -/
def handleOperator (op : Operator) (operators : List Operator) (pe : List Token) :
    List Operator × List Token :=
  let r := popGE op operators pe
  (op :: r.1, r.2)

/-- The flush of a non-empty operand buffer into the output, performed by
`tokenize` before it handles an operator character. -/
def flushOperand (st : ScanState) : ScanState :=
  if st.operand.isEmpty then st
  else { st with pe := st.pe ++ [Token.Operand (String.mk st.operand)], operand := [] }

/-- One character of the `tokenize` scan: on an operator character, flush a
non-empty operand buffer, then dispatch on the operator; otherwise append the
character to the operand buffer. -/
def scanChar (st : ScanState) (c : Char) : ScanState :=
  match charToOperator c with
  | some op =>
      let st1 := flushOperand st
      match op with
      | Operator.OpenParen => { st1 with operators := Operator.OpenParen :: st1.operators }
      | Operator.CloseParen =>
          let r := popUntilOpen st1.operators st1.pe
          { st1 with operators := r.1, pe := r.2 }
      | _ =>
          let r := handleOperator op st1.operators st1.pe
          { st1 with operators := r.1, pe := r.2 }
  | none => { st with operand := st.operand ++ [c] }

/-- The scan of `tokenize` over a prepared character list. -/
def tokenizeChars (cs : List Char) : List Token :=
  (cs.foldl scanChar ⟨[], [], []⟩).pe

/-- `tokenize`: remove the space characters (`expr.replace(" ", "")`), wrap
the expression in one outer pair of parentheses, and scan. -/
def tokenize (expr : String) : List Token :=
  tokenizeChars ('(' :: expr.data.filter (fun c => c != ' ') ++ [')'])

/-- The evaluation error type (`PostfixEvalError`, displayed as
"Invalid postfix expression"). -/
structure PostfixEvalError where
deriving DecidableEq, Repr

/-- One token of `evaluate`'s loop, acting on the operand stack (head is the
top): parse and push an operand; for an operator, require two stacked values,
pop `b` then `a`, fail when `op.operate a b` is NaN, otherwise push it. -/
def evalStep (st : List F64) : Token → Except PostfixEvalError (List F64)
  | Token.Operand s =>
      match parseF64 s with
      | some f => Except.ok (f :: st)
      | none => Except.error ⟨⟩
  | Token.Operator op =>
      match st with
      | b :: a :: rest =>
          let val := op.operate a b
          if val.isNan then Except.error ⟨⟩ else Except.ok (val :: rest)
      | _ => Except.error ⟨⟩

/-- The token loop of `evaluate`: the first error aborts. -/
def evalLoop (st : List F64) : List Token → Except PostfixEvalError (List F64)
  | [] => Except.ok st
  | t :: ts =>
      match evalStep st t with
      | Except.ok st2 => evalLoop st2 ts
      | Except.error e => Except.error e

/-- `evaluate` from a given starting stack: run the loop, then require exactly
one remaining value and return it. -/
def evalFrom (st : List F64) (ts : List Token) : Except PostfixEvalError F64 :=
  match evalLoop st ts with
  | Except.error e => Except.error e
  | Except.ok st2 =>
      match st2 with
      | [v] => Except.ok v
      | _ => Except.error ⟨⟩

/-- `evaluate` from src/shunting_yard/src/lib.rs. -/
def evaluate (tokens : List Token) : Except PostfixEvalError F64 :=
  evalFrom [] tokens

/-- `calculate` from src/calculator/src/main.rs: tokenize, evaluate, and map
the error to its display string. -/
def calculate (expression : String) : Except String F64 :=
  match evaluate (tokenize expression) with
  | Except.ok v => Except.ok v
  | Except.error _ => Except.error "Invalid postfix expression"

/-- The token loop of `evaluate` with its two `pop().unwrap()` calls modelled
explicitly: `pop` is `head?`, and unwrapping `none` — a Rust panic — is
`none` of the outer `Option`. The length guard of the source is kept as
written, so a `none` result is exactly a run that would panic. -/
def evalLoopChecked (st : List F64) :
    List Token → Option (Except PostfixEvalError (List F64))
  | [] => some (Except.ok st)
  | Token.Operand s :: ts =>
      (match parseF64 s with
       | some f => evalLoopChecked (f :: st) ts
       | none => some (Except.error ⟨⟩))
  | Token.Operator op :: ts =>
      if st.length < 2 then some (Except.error ⟨⟩)
      else
        match st.head? with
        | none => none
        | some b =>
            match st.tail.head? with
            | none => none
            | some a =>
                let val := op.operate a b
                if val.isNan then some (Except.error ⟨⟩)
                else evalLoopChecked (val :: st.tail.tail) ts

/-- `evaluate` with panics modelled: the final `operands[0]` indexing, guarded
by the length check of the source, is `getElem?`, and an out-of-bounds access
would be `none`. -/
def evaluateChecked (tokens : List Token) : Option (Except PostfixEvalError F64) :=
  match evalLoopChecked [] tokens with
  | none => none
  | some (Except.error e) => some (Except.error e)
  | some (Except.ok st) =>
      if st.length ≠ 1 then some (Except.error ⟨⟩)
      else
        match st[0]? with
        | none => none
        | some v => some (Except.ok v)

/-- Follows the spec's words (§4.1, step 3): the pop condition for a
non-parenthesis operator — the stack top is not an open parenthesis and the
top's precedence rank is greater than or equal to the incoming operator's
rank. -/
def shouldPop (op top : Operator) : Bool :=
  !(decide (top = Operator.OpenParen)) && decide (op.precidence ≤ top.precidence)

/-- Follows the spec's words (§4.2, §7): the runs of the evaluator, from a
given stack, that end in a failure. The four base cases are the four failure
conditions of the spec — an operand that fails numeric parse, an operator
with fewer than two stacked operands, an operation whose result is
not-a-number, and a final stack holding a number of values other than one —
and the two step cases thread a failure through a successful token. -/
inductive FailsFrom : List F64 → List Token → Prop where
  | badParse (st : List F64) (s : String) (ts : List Token) :
      parseF64 s = none → FailsFrom st (Token.Operand s :: ts)
  | parseStep (st : List F64) (s : String) (v : F64) (ts : List Token) :
      parseF64 s = some v → FailsFrom (v :: st) ts →
      FailsFrom st (Token.Operand s :: ts)
  | underflow (st : List F64) (op : Operator) (ts : List Token) :
      st.length < 2 → FailsFrom st (Token.Operator op :: ts)
  | nanResult (a b : F64) (st : List F64) (op : Operator) (ts : List Token) :
      (op.operate a b).isNan = true →
      FailsFrom (b :: a :: st) (Token.Operator op :: ts)
  | opStep (a b : F64) (st : List F64) (op : Operator) (ts : List Token) :
      (op.operate a b).isNan = false → FailsFrom (op.operate a b :: st) ts →
      FailsFrom (b :: a :: st) (Token.Operator op :: ts)
  | badFinal (st : List F64) : st.length ≠ 1 → FailsFrom st []

instance {ε α : Type} [DecidableEq ε] [DecidableEq α] : DecidableEq (Except ε α) := fun x y =>
  match x, y with
  | Except.ok a, Except.ok b => decidable_of_iff (a = b) (by simp)
  | Except.ok _, Except.error _ => isFalse (by simp)
  | Except.error _, Except.ok _ => isFalse (by simp)
  | Except.error e, Except.error f => decidable_of_iff (e = f) (by simp)

/-- C5: the precedence rank function assigns Add and Sub rank 1; Mult, Div,
Mod and Exp rank 2; Pow rank 3; the parenthesis markers rank 0; and two
operators compare as equal exactly when they have the same rank, so Pow >
Mult, Mult > Add, and Add equals Sub under the operator comparison. -/
theorem c5_precidence_ranks :
    (Operator.Add.precidence = 1 ∧ Operator.Sub.precidence = 1 ∧
     Operator.Mult.precidence = 2 ∧ Operator.Div.precidence = 2 ∧
     Operator.Mod.precidence = 2 ∧ Operator.Exp.precidence = 2 ∧
     Operator.Pow.precidence = 3 ∧
     Operator.OpenParen.precidence = 0 ∧ Operator.CloseParen.precidence = 0) ∧
    (∀ a b : Operator, Operator.opEq a b = true ↔ a.precidence = b.precidence) ∧
    Operator.opGt Operator.Pow Operator.Mult = true ∧
    Operator.opGt Operator.Mult Operator.Add = true ∧
    Operator.opEq Operator.Add Operator.Sub = true := by
  decide

/-- C6: when `evaluate` applies an operator, the value popped first (the most
recently pushed, the stack head) is the right operand `b` and the next is the
left operand `a`; `Exp` computes `a * 10 ^ b`, so evaluating
`[Operand "2", Operand "3", Operator Exp]` yields `Ok 2000` and not `Ok 300`
(and `[Operand "5", Operand "3", Operator Sub]` yields `Ok 2`, not `Ok (-2)`). -/
theorem c6_pop_order_and_exp :
    (∀ (a b : F64) (rest : List F64) (op : Operator),
        (op.operate a b).isNan = false →
        evalStep (b :: a :: rest) (Token.Operator op) = Except.ok (op.operate a b :: rest)) ∧
    (∀ a b : F64, Operator.Exp.operate a b = F64.mul a (F64.powf (F64.finite 10) b)) ∧
    evaluate [Token.Operand "2", Token.Operand "3", Token.Operator Operator.Exp] =
      Except.ok (F64.finite 2000) ∧
    evaluate [Token.Operand "2", Token.Operand "3", Token.Operator Operator.Exp] ≠
      Except.ok (F64.finite 300) ∧
    evaluate [Token.Operand "5", Token.Operand "3", Token.Operator Operator.Sub] =
      Except.ok (F64.finite 2) := by
  refine ⟨?_, fun a b => rfl, by with_unfolding_all decide, by with_unfolding_all decide,
    by with_unfolding_all decide⟩
  intro a b rest op h
  simp [evalStep, h]

/-- C6 witness: the general step equation of `c6_pop_order_and_exp` at the
concrete stack `[3, 5]` with the operator `Sub`, whose result `5 - 3 = 2` is
not NaN. -/
theorem c6_pop_order_witness :
    (Operator.Sub.operate (F64.finite 5) (F64.finite 3)).isNan = false ∧
    evalStep [F64.finite 3, F64.finite 5] (Token.Operator Operator.Sub) =
      Except.ok (F64.finite 2 :: []) := by
  constructor
  · with_unfolding_all decide
  · have h := c6_pop_order_and_exp.1 (F64.finite 5) (F64.finite 3) [] Operator.Sub
      (by with_unfolding_all decide)
    have h2 : Operator.Sub.operate (F64.finite 5) (F64.finite 3) = F64.finite 2 := by
      with_unfolding_all decide
    rw [h2] at h
    exact h

/-- C7: the full pipeline computes the expected value, with the parenthesized
sub-expression first: `calculate "10/(2+3)"` is `Ok 2`, and `"3+4*2"`
tokenizes and evaluates to `11`. -/
theorem c7_pipeline :
    calculate "10/(2+3)" = Except.ok (F64.finite 2) ∧
    evaluate (tokenize "3+4*2") = Except.ok (F64.finite 11) := by
  constructor
  · with_unfolding_all decide
  · with_unfolding_all decide

/-- C1 counterexample: both operands of `[Operand "1", Operand "0", Operator
Div]` are finite and the division-by-zero result is the non-finite value
infinity, yet `evaluate` returns it wrapped in `Ok` instead of failing — the
source only rejects NaN results, not infinite ones. -/
theorem c1_div_zero_counterexample :
    evaluate [Token.Operand "1", Token.Operand "0", Token.Operator Operator.Div] =
      Except.ok F64.inf ∧ F64.inf.isFinite = false := by
  constructor
  · with_unfolding_all decide
  · decide

/-- C1 amended: applying an operator whose numeric result is NaN causes
`evaluate` to fail rather than push the value; in particular modulo by zero
and the division 0/0 fail; but an operation producing an infinite result is
not rejected: dividing the finite nonzero value 1 by zero returns
`Ok` infinity. -/
theorem c1_nan_only_failure :
    (∀ (op : Operator) (a b : F64) (rest : List F64),
        (op.operate a b).isNan = true →
        evalStep (b :: a :: rest) (Token.Operator op) = Except.error ⟨⟩) ∧
    (∀ q : ℚ, F64.mod (F64.finite q) (F64.finite 0) = F64.nan) ∧
    evaluate [Token.Operand "0", Token.Operand "0", Token.Operator Operator.Div] =
      Except.error ⟨⟩ ∧
    evaluate [Token.Operand "7", Token.Operand "0", Token.Operator Operator.Mod] =
      Except.error ⟨⟩ ∧
    evaluate [Token.Operand "1", Token.Operand "0", Token.Operator Operator.Div] =
      Except.ok F64.inf := by
  refine ⟨?_, fun q => by simp [F64.mod], by with_unfolding_all decide,
    by with_unfolding_all decide, by with_unfolding_all decide⟩
  intro op a b rest h
  simp [evalStep, h]

/-- C1 witness: the NaN-rejection equation of `c1_nan_only_failure` at the
concrete stack `[0, 0]` with the operator `Div`, whose result 0/0 is NaN. -/
theorem c1_nan_only_witness :
    (Operator.Div.operate (F64.finite 0) (F64.finite 0)).isNan = true ∧
    evalStep [F64.finite 0, F64.finite 0] (Token.Operator Operator.Div) =
      Except.error ⟨⟩ :=
  ⟨by with_unfolding_all decide,
   c1_nan_only_failure.1 Operator.Div (F64.finite 0) (F64.finite 0) []
     (by with_unfolding_all decide)⟩

/-- C3 counterexample: the tab character is whitespace, yet inserting it into
`"3+4"` changes the token sequence — the source strips only the space
character, so the tab is swallowed into the operand text. -/
theorem c3_tab_counterexample :
    Char.isWhitespace '\t' = true ∧
    tokenize "3\t+4" ≠ tokenize "3+4" ∧
    tokenize "3\t+4" = [Token.Operand "3\t", Token.Operand "4", Token.Operator Operator.Add] := by
  decide

/-- C3 amended: `tokenize` removes all space (U+0020) characters — not all
whitespace — and wraps the expression in one outer pair of parentheses before
scanning; hence inserting a space character anywhere never changes the
resulting token sequence, while other whitespace characters become operand
text. -/
theorem c3_space_insertion :
    ∀ l1 l2 : List Char,
      tokenize (String.mk (l1 ++ ' ' :: l2)) = tokenize (String.mk (l1 ++ l2)) := by
  intro l1 l2
  simp [tokenize, List.filter_append]

theorem popGE_break_eq (op top : Operator) (h1 : op ≠ Operator.OpenParen)
    (h2 : op ≠ Operator.CloseParen) :
    (Operator.opEq top Operator.OpenParen || Operator.opGt op top) = !(shouldPop op top) := by
  cases op <;> first
    | exact absurd rfl h1
    | exact absurd rfl h2
    | (cases top <;> decide)

theorem popGE_spec (op : Operator) (h1 : op ≠ Operator.OpenParen)
    (h2 : op ≠ Operator.CloseParen) :
    ∀ (stack : List Operator) (pe : List Token),
      popGE op stack pe =
        (stack.dropWhile (shouldPop op),
         pe ++ (stack.takeWhile (shouldPop op)).map Token.Operator) := by
  intro stack
  induction stack with
  | nil => intro pe; simp [popGE]
  | cons top rest ih =>
      intro pe
      simp only [popGE, popGE_break_eq op top h1 h2]
      cases hsp : shouldPop op top with
      | true =>
          simp [hsp, ih, List.dropWhile_cons, List.takeWhile_cons]
      | false =>
          simp [hsp, List.dropWhile_cons, List.takeWhile_cons]

/-- C2: when a non-parenthesis operator is scanned, operators are popped from
the stack into the output exactly while the stack top is not an open
parenthesis and the top's precedence rank is greater than or equal to the
incoming operator's rank, and then the incoming operator is pushed; in
consequence Pow and Sub both associate left-to-right, as `a^b^c` and `a-b-c`
show — the second operator is emitted after the first, never nested
right-to-left. -/
theorem c2_pop_rule_left_assoc :
    (∀ (op : Operator) (stack : List Operator) (out : List Token),
        op ≠ Operator.OpenParen → op ≠ Operator.CloseParen →
        handleOperator op stack out =
          (op :: stack.dropWhile (shouldPop op),
           out ++ (stack.takeWhile (shouldPop op)).map Token.Operator)) ∧
    tokenize "a^b^c" =
      [Token.Operand "a", Token.Operand "b", Token.Operator Operator.Pow,
       Token.Operand "c", Token.Operator Operator.Pow] ∧
    tokenize "a-b-c" =
      [Token.Operand "a", Token.Operand "b", Token.Operator Operator.Sub,
       Token.Operand "c", Token.Operator Operator.Sub] := by
  refine ⟨?_, by decide, by decide⟩
  intro op stack out h1 h2
  simp [handleOperator, popGE_spec op h1 h2]

/-- C2 witness: the pop rule of `c2_pop_rule_left_assoc` at the incoming
operator `Add` over the stack `[Mult, OpenParen, Pow]`: `Mult` (rank 2 ≥ 1)
is popped, the open parenthesis stops the loop, and `Add` is pushed. -/
theorem c2_pop_rule_witness :
    handleOperator Operator.Add [Operator.Mult, Operator.OpenParen, Operator.Pow] [] =
      ([Operator.Add, Operator.OpenParen, Operator.Pow],
       [Token.Operator Operator.Mult]) := by
  have h := c2_pop_rule_left_assoc.1 Operator.Add
    [Operator.Mult, Operator.OpenParen, Operator.Pow] [] (by decide) (by decide)
  exact h.trans (by decide)

theorem prec_ne_zero_not_paren :
    ∀ o : Operator, o.precidence ≠ 0 → o ≠ Operator.OpenParen ∧ o ≠ Operator.CloseParen := by
  decide

theorem popUntilOpen_mem :
    ∀ (ops : List Operator) (pe : List Token),
      (∀ x ∈ (popUntilOpen ops pe).1, x ∈ ops) ∧
      (∀ t ∈ (popUntilOpen ops pe).2,
        t ∈ pe ∨ ∃ o ∈ ops, o ≠ Operator.OpenParen ∧ t = Token.Operator o) := by
  intro ops
  induction ops with
  | nil => intro pe; simp [popUntilOpen]
  | cons top rest ih =>
      intro pe
      cases top with
      | OpenParen =>
          refine ⟨fun x hx => ?_, fun t ht => ?_⟩
          · simp only [popUntilOpen] at hx; simp [hx]
          · simp only [popUntilOpen] at ht; exact Or.inl ht
      | Add =>
          refine ⟨fun x hx => ?_, fun t ht => ?_⟩
          · simp only [popUntilOpen] at hx
            have := (ih (pe ++ [Token.Operator Operator.Add])).1 x hx
            simp [this]
          · simp only [popUntilOpen] at ht
            rcases (ih (pe ++ [Token.Operator Operator.Add])).2 t ht with h | ⟨o, ho, h1, h2⟩
            · rcases List.mem_append.mp h with h | h
              · exact Or.inl h
              · exact Or.inr ⟨Operator.Add, by simp, by decide, by simpa using h⟩
            · exact Or.inr ⟨o, by simp [ho], h1, h2⟩
      | CloseParen =>
          refine ⟨fun x hx => ?_, fun t ht => ?_⟩
          · simp only [popUntilOpen] at hx
            have := (ih (pe ++ [Token.Operator Operator.CloseParen])).1 x hx
            simp [this]
          · simp only [popUntilOpen] at ht
            rcases (ih (pe ++ [Token.Operator Operator.CloseParen])).2 t ht with h | ⟨o, ho, h1, h2⟩
            · rcases List.mem_append.mp h with h | h
              · exact Or.inl h
              · exact Or.inr ⟨Operator.CloseParen, by simp, by decide, by simpa using h⟩
            · exact Or.inr ⟨o, by simp [ho], h1, h2⟩
      | Div =>
          refine ⟨fun x hx => ?_, fun t ht => ?_⟩
          · simp only [popUntilOpen] at hx
            have := (ih (pe ++ [Token.Operator Operator.Div])).1 x hx
            simp [this]
          · simp only [popUntilOpen] at ht
            rcases (ih (pe ++ [Token.Operator Operator.Div])).2 t ht with h | ⟨o, ho, h1, h2⟩
            · rcases List.mem_append.mp h with h | h
              · exact Or.inl h
              · exact Or.inr ⟨Operator.Div, by simp, by decide, by simpa using h⟩
            · exact Or.inr ⟨o, by simp [ho], h1, h2⟩
      | Pow =>
          refine ⟨fun x hx => ?_, fun t ht => ?_⟩
          · simp only [popUntilOpen] at hx
            have := (ih (pe ++ [Token.Operator Operator.Pow])).1 x hx
            simp [this]
          · simp only [popUntilOpen] at ht
            rcases (ih (pe ++ [Token.Operator Operator.Pow])).2 t ht with h | ⟨o, ho, h1, h2⟩
            · rcases List.mem_append.mp h with h | h
              · exact Or.inl h
              · exact Or.inr ⟨Operator.Pow, by simp, by decide, by simpa using h⟩
            · exact Or.inr ⟨o, by simp [ho], h1, h2⟩
      | Mult =>
          refine ⟨fun x hx => ?_, fun t ht => ?_⟩
          · simp only [popUntilOpen] at hx
            have := (ih (pe ++ [Token.Operator Operator.Mult])).1 x hx
            simp [this]
          · simp only [popUntilOpen] at ht
            rcases (ih (pe ++ [Token.Operator Operator.Mult])).2 t ht with h | ⟨o, ho, h1, h2⟩
            · rcases List.mem_append.mp h with h | h
              · exact Or.inl h
              · exact Or.inr ⟨Operator.Mult, by simp, by decide, by simpa using h⟩
            · exact Or.inr ⟨o, by simp [ho], h1, h2⟩
      | Sub =>
          refine ⟨fun x hx => ?_, fun t ht => ?_⟩
          · simp only [popUntilOpen] at hx
            have := (ih (pe ++ [Token.Operator Operator.Sub])).1 x hx
            simp [this]
          · simp only [popUntilOpen] at ht
            rcases (ih (pe ++ [Token.Operator Operator.Sub])).2 t ht with h | ⟨o, ho, h1, h2⟩
            · rcases List.mem_append.mp h with h | h
              · exact Or.inl h
              · exact Or.inr ⟨Operator.Sub, by simp, by decide, by simpa using h⟩
            · exact Or.inr ⟨o, by simp [ho], h1, h2⟩
      | Mod =>
          refine ⟨fun x hx => ?_, fun t ht => ?_⟩
          · simp only [popUntilOpen] at hx
            have := (ih (pe ++ [Token.Operator Operator.Mod])).1 x hx
            simp [this]
          · simp only [popUntilOpen] at ht
            rcases (ih (pe ++ [Token.Operator Operator.Mod])).2 t ht with h | ⟨o, ho, h1, h2⟩
            · rcases List.mem_append.mp h with h | h
              · exact Or.inl h
              · exact Or.inr ⟨Operator.Mod, by simp, by decide, by simpa using h⟩
            · exact Or.inr ⟨o, by simp [ho], h1, h2⟩
      | Exp =>
          refine ⟨fun x hx => ?_, fun t ht => ?_⟩
          · simp only [popUntilOpen] at hx
            have := (ih (pe ++ [Token.Operator Operator.Exp])).1 x hx
            simp [this]
          · simp only [popUntilOpen] at ht
            rcases (ih (pe ++ [Token.Operator Operator.Exp])).2 t ht with h | ⟨o, ho, h1, h2⟩
            · rcases List.mem_append.mp h with h | h
              · exact Or.inl h
              · exact Or.inr ⟨Operator.Exp, by simp, by decide, by simpa using h⟩
            · exact Or.inr ⟨o, by simp [ho], h1, h2⟩

theorem popGE_mem :
    ∀ (op : Operator) (ops : List Operator) (pe : List Token),
      (∀ x ∈ (popGE op ops pe).1, x ∈ ops) ∧
      (∀ t ∈ (popGE op ops pe).2,
        t ∈ pe ∨ ∃ o, o.precidence ≠ 0 ∧ t = Token.Operator o) := by
  intro op ops
  induction ops with
  | nil =>
      intro pe
      refine ⟨fun x hx => ?_, fun t ht => ?_⟩
      · simp only [popGE] at hx
        exact hx
      · exact Or.inl (by simpa [popGE] using ht)
  | cons top rest ih =>
      intro pe
      cases hb : (Operator.opEq top Operator.OpenParen || Operator.opGt op top) with
      | true =>
          refine ⟨fun x hx => ?_, fun t ht => ?_⟩
          · simp only [popGE, hb, if_true] at hx
            exact hx
          · simp only [popGE, hb, if_true] at ht
            exact Or.inl ht
      | false =>
          have hp : top.precidence ≠ 0 := by
            intro h0
            have he : Operator.opEq top Operator.OpenParen = true := by
              simp only [Operator.opEq, h0]
              decide
            simp [he] at hb
          refine ⟨fun x hx => ?_, fun t ht => ?_⟩
          · simp only [popGE, hb] at hx
            have := (ih (pe ++ [Token.Operator top])).1 x hx
            simp [this]
          · simp only [popGE, hb] at ht
            rcases (ih (pe ++ [Token.Operator top])).2 t ht with hh | hh
            · rcases List.mem_append.mp hh with hh | hh
              · exact Or.inl hh
              · exact Or.inr ⟨top, hp, by simpa using hh⟩
            · exact Or.inr hh

theorem flushOperand_operators (st : ScanState) :
    (flushOperand st).operators = st.operators := by
  by_cases h : st.operand.isEmpty <;> simp [flushOperand, h]

theorem flushOperand_pe_inv (st : ScanState) (p : Operator)
    (h : Token.Operator p ∉ st.pe) : Token.Operator p ∉ (flushOperand st).pe := by
  by_cases hh : st.operand.isEmpty <;> simp [flushOperand, hh, h]

/-- The tokenizing invariant: no close parenthesis is ever on the operator
stack, and no parenthesis token is ever in the output. -/
def ScanInv (st : ScanState) : Prop :=
  Operator.CloseParen ∉ st.operators ∧
  Token.Operator Operator.OpenParen ∉ st.pe ∧
  Token.Operator Operator.CloseParen ∉ st.pe

theorem scanChar_inv (st : ScanState) (c : Char) (h : ScanInv st) :
    ScanInv (scanChar st c) := by
  obtain ⟨h1, h2, h3⟩ := h
  have f1 : Operator.CloseParen ∉ (flushOperand st).operators := by
    rw [flushOperand_operators]; exact h1
  have f2 := flushOperand_pe_inv st Operator.OpenParen h2
  have f3 := flushOperand_pe_inv st Operator.CloseParen h3
  cases hc : charToOperator c with
  | none =>
      refine ⟨?_, ?_, ?_⟩ <;> simp [scanChar, hc, h1, h2, h3]
  | some op =>
      cases op with
      | OpenParen =>
          refine ⟨?_, ?_, ?_⟩ <;> simp only [scanChar, hc]
          · intro hx
            rcases List.mem_cons.mp hx with hh | hh
            · cases hh
            · exact f1 hh
          · exact f2
          · exact f3
      | CloseParen =>
          have hm := popUntilOpen_mem (flushOperand st).operators (flushOperand st).pe
          refine ⟨?_, ?_, ?_⟩ <;> simp only [scanChar, hc]
          · intro hx
            exact f1 (hm.1 _ hx)
          · intro ht
            rcases hm.2 _ ht with hh | ⟨o, _, hne, heq⟩
            · exact f2 hh
            · exact hne (Token.Operator.inj heq).symm
          · intro ht
            rcases hm.2 _ ht with hh | ⟨o, ho, _, heq⟩
            · exact f3 hh
            · exact f1 ((Token.Operator.inj heq) ▸ ho)
      | Add =>
          have hm := popGE_mem Operator.Add (flushOperand st).operators (flushOperand st).pe
          refine ⟨?_, ?_, ?_⟩ <;> simp only [scanChar, hc, handleOperator]
          · intro hx
            rcases List.mem_cons.mp hx with hh | hh
            · cases hh
            · exact f1 (hm.1 _ hh)
          · intro ht
            rcases hm.2 _ ht with hh | ⟨o, ho, heq⟩
            · exact f2 hh
            · exact ho ((Token.Operator.inj heq) ▸ rfl)
          · intro ht
            rcases hm.2 _ ht with hh | ⟨o, ho, heq⟩
            · exact f3 hh
            · exact ho ((Token.Operator.inj heq) ▸ rfl)
      | Div =>
          have hm := popGE_mem Operator.Div (flushOperand st).operators (flushOperand st).pe
          refine ⟨?_, ?_, ?_⟩ <;> simp only [scanChar, hc, handleOperator]
          · intro hx
            rcases List.mem_cons.mp hx with hh | hh
            · cases hh
            · exact f1 (hm.1 _ hh)
          · intro ht
            rcases hm.2 _ ht with hh | ⟨o, ho, heq⟩
            · exact f2 hh
            · exact ho ((Token.Operator.inj heq) ▸ rfl)
          · intro ht
            rcases hm.2 _ ht with hh | ⟨o, ho, heq⟩
            · exact f3 hh
            · exact ho ((Token.Operator.inj heq) ▸ rfl)
      | Pow =>
          have hm := popGE_mem Operator.Pow (flushOperand st).operators (flushOperand st).pe
          refine ⟨?_, ?_, ?_⟩ <;> simp only [scanChar, hc, handleOperator]
          · intro hx
            rcases List.mem_cons.mp hx with hh | hh
            · cases hh
            · exact f1 (hm.1 _ hh)
          · intro ht
            rcases hm.2 _ ht with hh | ⟨o, ho, heq⟩
            · exact f2 hh
            · exact ho ((Token.Operator.inj heq) ▸ rfl)
          · intro ht
            rcases hm.2 _ ht with hh | ⟨o, ho, heq⟩
            · exact f3 hh
            · exact ho ((Token.Operator.inj heq) ▸ rfl)
      | Mult =>
          have hm := popGE_mem Operator.Mult (flushOperand st).operators (flushOperand st).pe
          refine ⟨?_, ?_, ?_⟩ <;> simp only [scanChar, hc, handleOperator]
          · intro hx
            rcases List.mem_cons.mp hx with hh | hh
            · cases hh
            · exact f1 (hm.1 _ hh)
          · intro ht
            rcases hm.2 _ ht with hh | ⟨o, ho, heq⟩
            · exact f2 hh
            · exact ho ((Token.Operator.inj heq) ▸ rfl)
          · intro ht
            rcases hm.2 _ ht with hh | ⟨o, ho, heq⟩
            · exact f3 hh
            · exact ho ((Token.Operator.inj heq) ▸ rfl)
      | Sub =>
          have hm := popGE_mem Operator.Sub (flushOperand st).operators (flushOperand st).pe
          refine ⟨?_, ?_, ?_⟩ <;> simp only [scanChar, hc, handleOperator]
          · intro hx
            rcases List.mem_cons.mp hx with hh | hh
            · cases hh
            · exact f1 (hm.1 _ hh)
          · intro ht
            rcases hm.2 _ ht with hh | ⟨o, ho, heq⟩
            · exact f2 hh
            · exact ho ((Token.Operator.inj heq) ▸ rfl)
          · intro ht
            rcases hm.2 _ ht with hh | ⟨o, ho, heq⟩
            · exact f3 hh
            · exact ho ((Token.Operator.inj heq) ▸ rfl)
      | Mod =>
          have hm := popGE_mem Operator.Mod (flushOperand st).operators (flushOperand st).pe
          refine ⟨?_, ?_, ?_⟩ <;> simp only [scanChar, hc, handleOperator]
          · intro hx
            rcases List.mem_cons.mp hx with hh | hh
            · cases hh
            · exact f1 (hm.1 _ hh)
          · intro ht
            rcases hm.2 _ ht with hh | ⟨o, ho, heq⟩
            · exact f2 hh
            · exact ho ((Token.Operator.inj heq) ▸ rfl)
          · intro ht
            rcases hm.2 _ ht with hh | ⟨o, ho, heq⟩
            · exact f3 hh
            · exact ho ((Token.Operator.inj heq) ▸ rfl)
      | Exp =>
          have hm := popGE_mem Operator.Exp (flushOperand st).operators (flushOperand st).pe
          refine ⟨?_, ?_, ?_⟩ <;> simp only [scanChar, hc, handleOperator]
          · intro hx
            rcases List.mem_cons.mp hx with hh | hh
            · cases hh
            · exact f1 (hm.1 _ hh)
          · intro ht
            rcases hm.2 _ ht with hh | ⟨o, ho, heq⟩
            · exact f2 hh
            · exact ho ((Token.Operator.inj heq) ▸ rfl)
          · intro ht
            rcases hm.2 _ ht with hh | ⟨o, ho, heq⟩
            · exact f3 hh
            · exact ho ((Token.Operator.inj heq) ▸ rfl)

theorem foldl_scanChar_inv :
    ∀ (cs : List Char) (st : ScanState), ScanInv st → ScanInv (cs.foldl scanChar st) := by
  intro cs
  induction cs with
  | nil => intro st h; exact h
  | cons c cs ih => intro st h; exact ih _ (scanChar_inv st c h)

/-- C8: for every input string, the token sequence produced by `tokenize`
contains no open-parenthesis and no close-parenthesis operator token;
parentheses only drive the operator stack during the scan and are discarded. -/
theorem c8_no_parens_in_output :
    ∀ expr : String,
      Token.Operator Operator.OpenParen ∉ tokenize expr ∧
      Token.Operator Operator.CloseParen ∉ tokenize expr := by
  intro expr
  have h := foldl_scanChar_inv ('(' :: expr.data.filter (fun c => c != ' ') ++ [')'])
    ⟨[], [], []⟩ ⟨by simp, by simp, by simp⟩
  exact ⟨h.2.1, h.2.2⟩

theorem evalFrom_cons (st : List F64) (t : Token) (ts : List Token) :
    evalFrom st (t :: ts) =
      match evalStep st t with
      | Except.ok st2 => evalFrom st2 ts
      | Except.error e => Except.error e := by
  cases h : evalStep st t <;> simp [evalFrom, evalLoop, h]

theorem evalFrom_paren_error :
    ∀ (ts : List Token) (st : List F64) (p : Operator),
      (p = Operator.OpenParen ∨ p = Operator.CloseParen) →
      Token.Operator p ∈ ts → evalFrom st ts = Except.error ⟨⟩ := by
  intro ts
  induction ts with
  | nil => intro st p hp hm; cases hm
  | cons t rest ih =>
      intro st p hp hm
      rw [evalFrom_cons]
      rcases List.mem_cons.mp hm with he | hmem
      · subst he
        cases st with
        | nil => simp [evalStep]
        | cons b st2 =>
            cases st2 with
            | nil => simp [evalStep]
            | cons a r =>
                have hnan : (p.operate a b).isNan = true := by
                  rcases hp with h | h <;> subst h <;> rfl
                simp [evalStep, hnan]
      · cases hst : evalStep st t with
        | error e => cases e; simp
        | ok st2 => simpa using ih st2 p hp hmem

/-- C10: a token sequence containing an open- or close-parenthesis operator
token never evaluates to `Ok`: either an earlier error aborts the run, the
parenthesis finds fewer than two stacked operands, or its operation yields
NaN, which the result check rejects. -/
theorem c10_paren_tokens_error :
    ∀ ts : List Token,
      (Token.Operator Operator.OpenParen ∈ ts ∨ Token.Operator Operator.CloseParen ∈ ts) →
      evaluate ts = Except.error ⟨⟩ := by
  intro ts h
  rcases h with h | h
  · exact evalFrom_paren_error ts [] Operator.OpenParen (Or.inl rfl) h
  · exact evalFrom_paren_error ts [] Operator.CloseParen (Or.inr rfl) h

/-- C10 witness: `c10_paren_tokens_error` at the concrete one-token sequence
holding an open parenthesis. -/
theorem c10_paren_witness :
    Token.Operator Operator.OpenParen ∈ [Token.Operator Operator.OpenParen] ∧
    evaluate [Token.Operator Operator.OpenParen] = Except.error ⟨⟩ :=
  ⟨List.mem_singleton.mpr rfl,
   c10_paren_tokens_error [Token.Operator Operator.OpenParen]
     (Or.inl (List.mem_singleton.mpr rfl))⟩

theorem evalLoopChecked_eq :
    ∀ (ts : List Token) (st : List F64),
      evalLoopChecked st ts = some (evalLoop st ts) := by
  intro ts
  induction ts with
  | nil => intro st; rfl
  | cons t rest ih =>
      intro st
      cases t with
      | Operand s =>
          cases hp : parseF64 s with
          | none => simp [evalLoopChecked, evalLoop, evalStep, hp]
          | some f => simp [evalLoopChecked, evalLoop, evalStep, hp, ih]
      | Operator op =>
          cases st with
          | nil => simp [evalLoopChecked, evalLoop, evalStep]
          | cons b st2 =>
              cases st2 with
              | nil => simp [evalLoopChecked, evalLoop, evalStep]
              | cons a r =>
                  have hlen : ¬((b :: a :: r).length < 2) := by simp
                  cases hn : (op.operate a b).isNan with
                  | true => simp [evalLoopChecked, evalLoop, evalStep, hlen, hn]
                  | false => simp [evalLoopChecked, evalLoop, evalStep, hlen, hn, ih]

/-- C9: `evaluate` is total and never panics — with the two `pop().unwrap()`
calls and the final indexing modelled explicitly (`evaluateChecked`, where a
panic is `none`), every token sequence, however malformed, produces
`some` result, equal to `evaluate`'s `Ok` or `Err`. -/
theorem c9_no_panic :
    ∀ ts : List Token, evaluateChecked ts = some (evaluate ts) := by
  intro ts
  cases h : evalLoop [] ts with
  | error e =>
      cases e
      simp [evaluateChecked, evalLoopChecked_eq, h, evaluate, evalFrom]
  | ok st =>
      match st with
      | [] => simp [evaluateChecked, evalLoopChecked_eq, h, evaluate, evalFrom]
      | [v] => simp [evaluateChecked, evalLoopChecked_eq, h, evaluate, evalFrom]
      | v :: w :: r => simp [evaluateChecked, evalLoopChecked_eq, h, evaluate, evalFrom]

theorem evalFrom_cons_ok (st st2 : List F64) (t : Token) (ts : List Token)
    (h : evalStep st t = Except.ok st2) : evalFrom st (t :: ts) = evalFrom st2 ts := by
  rw [evalFrom_cons, h]

theorem evalFrom_cons_err (st : List F64) (t : Token) (ts : List Token) (e : PostfixEvalError)
    (h : evalStep st t = Except.error e) : evalFrom st (t :: ts) = Except.error e := by
  rw [evalFrom_cons, h]

theorem evalFrom_error_iff :
    ∀ (ts : List Token) (st : List F64),
      evalFrom st ts = Except.error ⟨⟩ ↔ FailsFrom st ts := by
  intro ts
  induction ts with
  | nil =>
      intro st
      cases st with
      | nil =>
          exact iff_of_true rfl (FailsFrom.badFinal [] (by simp))
      | cons v st2 =>
          cases st2 with
          | nil =>
              constructor
              · intro h
                exact absurd h (by simp [evalFrom, evalLoop])
              · intro h
                cases h with
                | badFinal _ hl => exact absurd rfl hl
          | cons w r =>
              exact iff_of_true rfl (FailsFrom.badFinal _ (by simp))
  | cons t rest ih =>
      intro st
      cases t with
      | Operand s =>
          cases hp : parseF64 s with
          | none =>
              have hstep : evalStep st (Token.Operand s) = Except.error ⟨⟩ := by
                simp [evalStep, hp]
              rw [evalFrom_cons_err st _ rest ⟨⟩ hstep]
              exact iff_of_true rfl (FailsFrom.badParse st s rest hp)
          | some v =>
              have hstep : evalStep st (Token.Operand s) = Except.ok (v :: st) := by
                simp [evalStep, hp]
              rw [evalFrom_cons_ok st (v :: st) _ rest hstep, ih (v :: st)]
              constructor
              · intro h
                exact FailsFrom.parseStep st s v rest hp h
              · intro h
                cases h with
                | badParse _ _ _ h0 => rw [hp] at h0; cases h0
                | parseStep _ _ v' _ h0 h1 =>
                    rw [hp] at h0
                    cases h0
                    exact h1
      | Operator op =>
          cases st with
          | nil =>
              have hstep : evalStep [] (Token.Operator op) = Except.error ⟨⟩ := by
                simp [evalStep]
              rw [evalFrom_cons_err [] _ rest ⟨⟩ hstep]
              exact iff_of_true rfl (FailsFrom.underflow [] op rest (by simp))
          | cons b st2 =>
              cases st2 with
              | nil =>
                  have hstep : evalStep [b] (Token.Operator op) = Except.error ⟨⟩ := by
                    simp [evalStep]
                  rw [evalFrom_cons_err [b] _ rest ⟨⟩ hstep]
                  exact iff_of_true rfl (FailsFrom.underflow [b] op rest (by simp))
              | cons a r =>
                  cases hn : (op.operate a b).isNan with
                  | true =>
                      have hstep : evalStep (b :: a :: r) (Token.Operator op) =
                          Except.error ⟨⟩ := by
                        simp [evalStep, hn]
                      rw [evalFrom_cons_err (b :: a :: r) _ rest ⟨⟩ hstep]
                      exact iff_of_true rfl (FailsFrom.nanResult a b r op rest hn)
                  | false =>
                      have hstep : evalStep (b :: a :: r) (Token.Operator op) =
                          Except.ok (op.operate a b :: r) := by
                        simp [evalStep, hn]
                      rw [evalFrom_cons_ok (b :: a :: r) (op.operate a b :: r) _ rest hstep,
                        ih (op.operate a b :: r)]
                      constructor
                      · intro h
                        exact FailsFrom.opStep a b r op rest hn h
                      · intro h
                        cases h with
                        | underflow _ _ _ hl => exact absurd hl (by simp)
                        | nanResult _ _ _ _ _ h0 => rw [hn] at h0; cases h0
                        | opStep _ _ _ _ _ _ h1 => exact h1

theorem evalFrom_ok_iff :
    ∀ (ts : List Token) (st : List F64) (v : F64),
      evalFrom st ts = Except.ok v ↔ evalLoop st ts = Except.ok [v] := by
  intro ts st v
  unfold evalFrom
  cases h : evalLoop st ts with
  | error e => simp
  | ok st2 =>
      match st2 with
      | [] => simp
      | [w] => simp
      | w :: x :: r => simp

/-- C4: `evaluate` returns an error exactly when its run fails for one of the
spec's four conditions — an operand that fails numeric parse, an operator
met with fewer than two stacked values, an operation producing a NaN result,
or a final stack holding a number of values other than one (`FailsFrom`,
written from the spec's words) — and otherwise returns `Ok` with precisely
the single value left on the stack, never a default or zero value. -/
theorem c4_error_iff_conditions :
    ∀ ts : List Token,
      (evaluate ts = Except.error ⟨⟩ ↔ FailsFrom [] ts) ∧
      (∀ v : F64, evaluate ts = Except.ok v ↔ evalLoop [] ts = Except.ok [v]) := by
  intro ts
  exact ⟨evalFrom_error_iff ts [], fun v => evalFrom_ok_iff ts [] v⟩
